import Mathlib

/-!
Shallow embedding of the immutable-dll doubly linked list
(src/modules/DLinkedList.ts and src/modules/Node.ts).

Heap model: JavaScript Node objects are heap cells with identity.  The heap
is modelled as a growing store (a list of node records); a node reference is
the index at which the node was allocated, and the JS value null is modelled
as Option.none.  Nodes are never removed from the store (garbage collection
is unobservable), so references stay valid across operations exactly as the
corresponding object references do in JS.

Exceptions: operations that throw before any mutation return Except;
removeNode, which mutates before it can hit a null dereference, returns the
mutated state paired with an optional error.

Cloning: lodash cloneDeep produces a structurally equal copy of plain
objects and arrays and is the identity on everything else.  On the pure
values of the model a structural copy is the value itself, so clonePlain is
the identity function; the clone call sites are kept where the source has
them.

Loops: the source walks next/prev pointers with while loops; the embedding
uses explicit fuel (the store size bounds the length of any duplicate-free
chain, and every well formed list has a duplicate-free chain).
-/

namespace ImmutableDll

/-- Errors a DLinkedList operation can raise.  notFound and invalidRef are
the two Error throws written in the source; typeError is the implicit JS
TypeError raised by dereferencing null (or, in the model only, a dangling
store index, which no reachable state produces). -/
inductive JsError : Type where
  | notFound
  | invalidRef
  | typeError
deriving Repr, DecidableEq

/-- A doubly linked cell (src/modules/Node.ts): an owned payload plus
references to the neighbours.  prev and next are node references (store
indices), none standing for the JS null.  The constructor clones the
payload (clonePlain) and defaults missing links to null. -/
structure Node (T : Type) where
  data : T
  prev : Option Nat
  next : Option Nat
deriving Repr, DecidableEq

/-- Deep clone of plain objects and arrays, identity on everything else
(src/modules/Node.ts clonePlain).  A deep structural copy of a pure value
is the value itself, so in the model this is the identity. -/
def clonePlain {T : Type} (x : T) : T := x

/-- Node.getData: returns a fresh clone of the payload. -/
def Node.getData {T : Type} (nd : Node T) : T := clonePlain nd.data

/-- The list object (src/modules/DLinkedList.ts): head and tail references,
a length counter, and the backing store of every node ever allocated. -/
structure DLinkedList (T : Type) where
  store : List (Node T)
  head_node : Option Nat
  tail_node : Option Nat
  length : Int
deriving Repr, DecidableEq

namespace DLinkedList

variable {T V : Type} {E : Type}

/-- A freshly constructed list: head_node = null, tail_node = null,
length = 0, nothing allocated. -/
def empty (T : Type) : DLinkedList T := ⟨[], none, none, 0⟩

/-- Dereference a node reference in the store. -/
def getNode (l : DLinkedList T) (i : Nat) : Option (Node T) := l.store[i]?

/-- Node.setNext performed on the node stored at index i. -/
def setNext (l : DLinkedList T) (i : Nat) (v : Option Nat) : DLinkedList T :=
  match l.store[i]? with
  | none => l
  | some nd => { l with store := l.store.set i { nd with next := v } }

/-- Node.setPrev performed on the node stored at index i. -/
def setPrev (l : DLinkedList T) (i : Nat) (v : Option Nat) : DLinkedList T :=
  match l.store[i]? with
  | none => l
  | some nd => { l with store := l.store.set i { nd with prev := v } }

/-- append(data): adds the supplied data to the end of the list.  When the
list is empty the new node becomes head and tail; otherwise the new node is
allocated with prev = tail_node, the old tail's next is rewired to it, and
it becomes the tail.  length += 1. -/
def append (l : DLinkedList T) (data : T) : DLinkedList T :=
  match l.head_node with
  | none =>
    let m := l.store.length
    let n : Node T := ⟨clonePlain data, none, none⟩
    { store := l.store ++ [n], head_node := some m, tail_node := some m,
      length := l.length + 1 }
  | some _ =>
    let m := l.store.length
    let n : Node T := ⟨clonePlain data, l.tail_node, none⟩
    let l1 : DLinkedList T := { l with store := l.store ++ [n] }
    let l2 : DLinkedList T :=
      match l.tail_node with
      | some t => l1.setNext t (some m)
      | none => l1
    { l2 with tail_node := some m, length := l.length + 1 }

/-- prepend(data): adds the supplied data to the front of the list.  When
the list is empty the new node becomes head and tail; otherwise the new node
is allocated with next = head_node, the old head's prev is rewired to it,
and it becomes the head.  length += 1. -/
def prepend (l : DLinkedList T) (data : T) : DLinkedList T :=
  match l.head_node with
  | none =>
    let m := l.store.length
    let n : Node T := ⟨clonePlain data, none, none⟩
    { store := l.store ++ [n], head_node := some m, tail_node := some m,
      length := l.length + 1 }
  | some h =>
    let m := l.store.length
    let n : Node T := ⟨clonePlain data, none, some h⟩
    let l1 : DLinkedList T := { l with store := l.store ++ [n] }
    let l2 : DLinkedList T := l1.setPrev h (some m)
    { l2 with head_node := some m, length := l.length + 1 }

/-- fromArray(arr), instance form: iterates the input in order, appending
each element to this list. -/
def fromArray (l : DLinkedList T) (arr : List T) : DLinkedList T :=
  arr.foldl append l

/-- DLinkedList.fromArray(arr), static form: builds a fresh list and feeds
the array to the instance form. -/
def fromArrayStatic (arr : List T) : DLinkedList T :=
  (empty T).fromArray arr

/-- Generic forward walk: follow next from the cursor, collecting
g(current.getData()) at every node, exactly as the source while loops do
(toArray with g the identity, map with g the iteratee). -/
def collectNext (l : DLinkedList T) (g : T → V) : Nat → Option Nat → List V
  | _, none => []
  | 0, some _ => []
  | fuel + 1, some i =>
    match l.getNode i with
    | none => []
    | some nd => g nd.getData :: collectNext l g fuel nd.next

/-- Generic backward walk: follow prev from the cursor, collecting
g(current.getData()) at every node (mapRight, and the spec's walk of prev
from tail). -/
def collectPrev (l : DLinkedList T) (g : T → V) : Nat → Option Nat → List V
  | _, none => []
  | 0, some _ => []
  | fuel + 1, some i =>
    match l.getNode i with
    | none => []
    | some nd => g nd.getData :: collectPrev l g fuel nd.prev

/-- toArray(): collects cloned payloads head to tail. -/
def toArray (l : DLinkedList T) : List T :=
  collectNext l (fun x => x) l.store.length l.head_node

/-- Payloads collected by walking prev from the tail: the count the spec
compares with length (it has no direct counterpart method in the source,
but is the traversal mapRight and eachRight perform). -/
def walkPrevData (l : DLinkedList T) : List T :=
  collectPrev l (fun x => x) l.store.length l.tail_node

/-- findNode loop body: head-to-tail scan returning the first node whose
cloned payload satisfies the predicate. -/
def findNodeAux (l : DLinkedList T) (pred : T → Bool) :
    Nat → Option Nat → Option Nat
  | _, none => none
  | 0, some _ => none
  | fuel + 1, some i =>
    match l.getNode i with
    | none => none
    | some nd =>
      if pred nd.getData then some i else findNodeAux l pred fuel nd.next

/-- findNode(predicate): first node matching the predicate, or null. -/
def findNode (l : DLinkedList T) (pred : T → Bool) : Option Nat :=
  findNodeAux l pred l.store.length l.head_node

/-- removeHead(): empty list is a no-op; a single node clears head and
tail; otherwise the second node becomes head and its prev is nulled.
length -= 1 whenever the list was non-empty. -/
def removeHead (l : DLinkedList T) : DLinkedList T :=
  match l.head_node with
  | none => l
  | some h =>
    match (l.getNode h).bind Node.next with
    | none => { l with head_node := none, tail_node := none, length := l.length - 1 }
    | some nx =>
      { l.setPrev nx none with head_node := some nx, length := l.length - 1 }

/-- removeTail(): symmetric to removeHead at the tail. -/
def removeTail (l : DLinkedList T) : DLinkedList T :=
  match l.tail_node with
  | none => l
  | some t =>
    match (l.getNode t).bind Node.prev with
    | none => { l with head_node := none, tail_node := none, length := l.length - 1 }
    | some pv =>
      { l.setNext pv none with tail_node := some pv, length := l.length - 1 }

/-- removeNode(node): null node is a no-op; a node with null prev delegates
to removeHead; otherwise the source runs
node.getPrev().setNext(node.getNext()) and then
node.getNext().setPrev(node.getPrev()).  When node.getNext() is null (node
is the tail) the second call dereferences null and throws a TypeError after
the first rewiring already happened and before length is decremented; the
pair returned here carries that partially mutated state together with the
error. -/
def removeNode (l : DLinkedList T) (node : Option Nat) :
    DLinkedList T × Option JsError :=
  match node with
  | none => (l, none)
  | some i =>
    match l.getNode i with
    | none => (l, some JsError.typeError)
    | some nd =>
      match nd.prev with
      | none => (l.removeHead, none)
      | some pv =>
        let l1 := l.setNext pv nd.next
        match nd.next with
        | none => (l1, some JsError.typeError)
        | some nx =>
          let l2 := l1.setPrev nx nd.prev
          ({ l2 with length := l2.length - 1 }, none)

/-- remove(predicate): find the first match and delegate to removeNode (a
no-op when nothing matches). -/
def remove (l : DLinkedList T) (pred : T → Bool) :
    DLinkedList T × Option JsError :=
  l.removeNode (l.findNode pred)

/-- insertAfterNode(node, data): throws invalidRef on a null node; when the
node is the tail delegates to append; otherwise splices a new node between
node and node.next, rewiring both neighbours.  length += 1. -/
def insertAfterNode (l : DLinkedList T) (node : Option Nat) (data : T) :
    Except JsError (DLinkedList T) :=
  match node with
  | none => Except.error JsError.invalidRef
  | some i =>
    match l.getNode i with
    | none => Except.error JsError.typeError
    | some nd =>
      match nd.next with
      | none => Except.ok (l.append data)
      | some nx =>
        let m := l.store.length
        let n : Node T := ⟨clonePlain data, some i, some nx⟩
        let l1 : DLinkedList T := { l with store := l.store ++ [n] }
        let l2 := l1.setPrev nx (some m)
        let l3 := l2.setNext i (some m)
        Except.ok { l3 with length := l.length + 1 }

/-- insertBeforeNode(node, data): symmetric to insertAfterNode, delegating
to prepend when the node is the head. -/
def insertBeforeNode (l : DLinkedList T) (node : Option Nat) (data : T) :
    Except JsError (DLinkedList T) :=
  match node with
  | none => Except.error JsError.invalidRef
  | some i =>
    match l.getNode i with
    | none => Except.error JsError.typeError
    | some nd =>
      match nd.prev with
      | none => Except.ok (l.prepend data)
      | some pv =>
        let m := l.store.length
        let n : Node T := ⟨clonePlain data, some pv, some i⟩
        let l1 : DLinkedList T := { l with store := l.store ++ [n] }
        let l2 := l1.setNext pv (some m)
        let l3 := l2.setPrev i (some m)
        Except.ok { l3 with length := l.length + 1 }

/-- insertAfter(predicate, data): throws notFound when no node matches,
otherwise delegates to insertAfterNode on the found node. -/
def insertAfter (l : DLinkedList T) (pred : T → Bool) (data : T) :
    Except JsError (DLinkedList T) :=
  match l.findNode pred with
  | none => Except.error JsError.notFound
  | some i => l.insertAfterNode (some i) data

/-- insertBefore(predicate, data): throws notFound when no node matches,
otherwise delegates to insertBeforeNode on the found node. -/
def insertBefore (l : DLinkedList T) (pred : T → Bool) (data : T) :
    Except JsError (DLinkedList T) :=
  match l.findNode pred with
  | none => Except.error JsError.notFound
  | some i => l.insertBeforeNode (some i) data

/-- clear(): releases head and tail and resets length (the store keeps the
now unreachable cells, as the JS heap does). -/
def clear (l : DLinkedList T) : DLinkedList T :=
  { l with head_node := none, tail_node := none, length := 0 }

/-- map(iteratee): collects iteratee(current.getData()) head to tail and
builds a new list from the results via the static fromArray. -/
def map (l : DLinkedList T) (f : T → V) : DLinkedList V :=
  fromArrayStatic (collectNext l f l.store.length l.head_node)

/-- map with the iteratee omitted: the source defaults mapFn to the
identity function. -/
def mapDefault (l : DLinkedList T) : DLinkedList T :=
  l.map (fun x => x)

/-- mapRight(iteratee): same as map but sourced tail to head via prev. -/
def mapRight (l : DLinkedList T) (f : T → V) : DLinkedList V :=
  fromArrayStatic (collectPrev l f l.store.length l.tail_node)

/-- mapRight with the iteratee omitted: defaults to the identity. -/
def mapRightDefault (l : DLinkedList T) : DLinkedList T :=
  l.mapRight (fun x => x)

/-- Promise.all over already-determined computations: succeeds with the
list of all results when every computation succeeds, otherwise fails with
the first failure. -/
def promiseAll : List (Except E V) → Except E (List V)
  | [] => Except.ok []
  | p :: ps => do
    let v ← p
    let vs ← promiseAll ps
    pure (v :: vs)

/-- Whether a computation failed. -/
def isErr : Except E V → Bool
  | Except.error _ => true
  | Except.ok _ => false

/-- asyncMap(iteratee): initiates one computation per node head to tail,
joins them all with Promise.all, and builds a new list from the unwrapped
results; any single failure fails the whole operation. -/
def asyncMap (l : DLinkedList T) (f : T → Except E V) :
    Except E (DLinkedList V) := do
  let unwrapped ← promiseAll (collectNext l f l.store.length l.head_node)
  pure (fromArrayStatic unwrapped)

/-- asyncMapRight(iteratee): same as asyncMap but sourced tail to head. -/
def asyncMapRight (l : DLinkedList T) (f : T → Except E V) :
    Except E (DLinkedList V) := do
  let unwrapped ← promiseAll (collectPrev l f l.store.length l.tail_node)
  pure (fromArrayStatic unwrapped)

/-- reduce loop body: thread the accumulator through
iteratee(current.getData(), acc) following next. -/
def reduceAux (l : DLinkedList T) (f : T → V → V) :
    Nat → Option Nat → V → V
  | _, none, acc => acc
  | 0, some _, acc => acc
  | fuel + 1, some i, acc =>
    match l.getNode i with
    | none => acc
    | some nd => reduceAux l f fuel nd.next (f nd.getData acc)

/-- reduce(iteratee, accumulator): left fold head to tail. -/
def reduce (l : DLinkedList T) (f : T → V → V) (accumulator : V) : V :=
  reduceAux l f l.store.length l.head_node accumulator

/-- reduceRight loop body: same fold following prev. -/
def reduceRightAux (l : DLinkedList T) (f : T → V → V) :
    Nat → Option Nat → V → V
  | _, none, acc => acc
  | 0, some _, acc => acc
  | fuel + 1, some i, acc =>
    match l.getNode i with
    | none => acc
    | some nd => reduceRightAux l f fuel nd.prev (f nd.getData acc)

/-- reduceRight(iteratee, accumulator): fold tail to head. -/
def reduceRight (l : DLinkedList T) (f : T → V → V) (accumulator : V) : V :=
  reduceRightAux l f l.store.length l.tail_node accumulator

/-- asyncReduce stepper: awaits each iteratee result before visiting the
next node (the source's self-recursive continuation). -/
def asyncReduceAux (l : DLinkedList T) (f : T → V → Except E V) :
    Nat → Option Nat → V → Except E V
  | _, none, acc => Except.ok acc
  | 0, some _, acc => Except.ok acc
  | fuel + 1, some i, acc =>
    match l.getNode i with
    | none => Except.ok acc
    | some nd => do
      let next_acc ← f nd.getData acc
      asyncReduceAux l f fuel nd.next next_acc

/-- asyncReduce(iteratee, accumulator): strictly sequential asynchronous
left fold head to tail. -/
def asyncReduce (l : DLinkedList T) (f : T → V → Except E V)
    (accumulator : V) : Except E V :=
  asyncReduceAux l f l.store.length l.head_node accumulator

/-- asyncReduceRight stepper: the same sequential fold following prev. -/
def asyncReduceRightAux (l : DLinkedList T) (f : T → V → Except E V) :
    Nat → Option Nat → V → Except E V
  | _, none, acc => Except.ok acc
  | 0, some _, acc => Except.ok acc
  | fuel + 1, some i, acc =>
    match l.getNode i with
    | none => Except.ok acc
    | some nd => do
      let next_acc ← f nd.getData acc
      asyncReduceRightAux l f fuel nd.prev next_acc

/-- asyncReduceRight(iteratee, accumulator): sequential asynchronous fold
tail to head. -/
def asyncReduceRight (l : DLinkedList T) (f : T → V → Except E V)
    (accumulator : V) : Except E V :=
  asyncReduceRightAux l f l.store.length l.tail_node accumulator

/-- head(): the TS return type is T-or-null.  At a payload type whose
values already include the JS null (here Option, with none standing for
null) the union collapses: the null returned for an empty list is the very
same value as a stored null payload.  Stated at that payload type to keep
the collapse observable, as it is in JS. -/
def head {A : Type} (l : DLinkedList (Option A)) : Option A :=
  match l.head_node with
  | none => none
  | some i => (l.getNode i).bind (fun nd => nd.getData)

/-- tail(): as head, at the tail node. -/
def tail {A : Type} (l : DLinkedList (Option A)) : Option A :=
  match l.tail_node with
  | none => none
  | some i => (l.getNode i).bind (fun nd => nd.getData)

/-- find(predicate): the found node's cloned payload, or null on a miss;
at an Option payload type the two nulls coincide, as in JS. -/
def find {A : Type} (l : DLinkedList (Option A)) (pred : Option A → Bool) :
    Option A :=
  match l.findNode pred with
  | none => none
  | some i => (l.getNode i).bind (fun nd => nd.getData)

/-! Representation predicate: which abstract sequence a list state holds. -/

/-- lastOr ids p: the last element of ids as a cursor, falling back to p
when ids is empty (used to phrase the backward-walk lemma). -/
def lastOr (ids : List Nat) (p : Option Nat) : Option Nat :=
  match ids.getLast? with
  | some i => some i
  | none => p

/-- isChainFrom l p ids xs: the store indices ids form a doubly linked
chain holding payloads xs, whose first node has prev = p, whose next links
run along ids, and whose last node has next = null. -/
def isChainFrom (l : DLinkedList T) : Option Nat → List Nat → List T → Prop
  | _, [], [] => True
  | p, i :: ids, x :: xs =>
      l.getNode i = some ⟨x, p, ids.head?⟩ ∧ isChainFrom l (some i) ids xs
  | _, [], _ :: _ => False
  | _, _ :: _, [] => False

/-- Represents l ids xs: l is a well formed list whose node chain is ids
and whose payload sequence is xs. -/
def Represents (l : DLinkedList T) (ids : List Nat) (xs : List T) : Prop :=
  isChainFrom l none ids xs ∧ l.head_node = ids.head? ∧
    l.tail_node = ids.getLast? ∧ l.length = (xs.length : Int) ∧ ids.Nodup

theorem isChainFrom_length {l : DLinkedList T} :
    ∀ (p : Option Nat) (ids : List Nat) (xs : List T),
      isChainFrom l p ids xs → ids.length = xs.length
  | _, [], [], _ => rfl
  | _, i :: ids, x :: xs, h => by
    simpa using isChainFrom_length (some i) ids xs h.2
  | _, [], _ :: _, h => h.elim
  | _, _ :: _, [], h => h.elim

theorem getNode_lt {l : DLinkedList T} {i : Nat} {nd : Node T}
    (h : l.getNode i = some nd) : i < l.store.length := by
  obtain ⟨hlt, -⟩ := List.getElem?_eq_some.mp h
  exact hlt

theorem isChainFrom_valid {l : DLinkedList T} :
    ∀ (p : Option Nat) (ids : List Nat) (xs : List T),
      isChainFrom l p ids xs → ∀ j ∈ ids, j < l.store.length
  | _, [], [], _ => by intro j hj; cases hj
  | _, i :: ids, x :: xs, h => by
    intro j hj
    rcases List.mem_cons.mp hj with rfl | hj
    · exact getNode_lt h.1
    · exact isChainFrom_valid (some i) ids xs h.2 j hj
  | _, [], _ :: _, h => h.elim
  | _, _ :: _, [], h => h.elim

theorem isChainFrom_congr {l₁ l₂ : DLinkedList T} :
    ∀ (p : Option Nat) (ids : List Nat) (xs : List T),
      (∀ j ∈ ids, l₂.getNode j = l₁.getNode j) →
      isChainFrom l₁ p ids xs → isChainFrom l₂ p ids xs
  | _, [], [], _, _ => trivial
  | _, i :: ids, _ :: xs, hag, h =>
    ⟨(hag i (List.mem_cons_self i ids)).trans h.1,
      isChainFrom_congr (some i) ids xs
        (fun j hj => hag j (List.mem_cons_of_mem i hj)) h.2⟩
  | _, [], _ :: _, _, h => h.elim
  | _, _ :: _, [], _, h => h.elim

theorem Represents.ids_le {l : DLinkedList T} {ids : List Nat} {xs : List T}
    (h : Represents l ids xs) : ids.length ≤ l.store.length := by
  classical
  have hcard : ids.toFinset.card = ids.length :=
    List.toFinset_card_of_nodup h.2.2.2.2
  have hsub : ids.toFinset ⊆ Finset.range l.store.length := by
    intro j hj
    exact Finset.mem_range.mpr
      (isChainFrom_valid none ids xs h.1 j (List.mem_toFinset.mp hj))
  calc ids.length = ids.toFinset.card := hcard.symm
    _ ≤ (Finset.range l.store.length).card := Finset.card_le_card hsub
    _ = l.store.length := Finset.card_range _

/-! Frame lemmas for the store-level setters. -/

theorem setNext_store_length (l : DLinkedList T) (i : Nat) (v : Option Nat) :
    (l.setNext i v).store.length = l.store.length := by
  simp only [setNext]
  split <;> simp

theorem setPrev_store_length (l : DLinkedList T) (i : Nat) (v : Option Nat) :
    (l.setPrev i v).store.length = l.store.length := by
  simp only [setPrev]
  split <;> simp

theorem setNext_head_node (l : DLinkedList T) (i : Nat) (v : Option Nat) :
    (l.setNext i v).head_node = l.head_node := by
  simp only [setNext]
  split <;> rfl

theorem setPrev_head_node (l : DLinkedList T) (i : Nat) (v : Option Nat) :
    (l.setPrev i v).head_node = l.head_node := by
  simp only [setPrev]
  split <;> rfl

theorem setNext_tail_node (l : DLinkedList T) (i : Nat) (v : Option Nat) :
    (l.setNext i v).tail_node = l.tail_node := by
  simp only [setNext]
  split <;> rfl

theorem setPrev_tail_node (l : DLinkedList T) (i : Nat) (v : Option Nat) :
    (l.setPrev i v).tail_node = l.tail_node := by
  simp only [setPrev]
  split <;> rfl

theorem setNext_length (l : DLinkedList T) (i : Nat) (v : Option Nat) :
    (l.setNext i v).length = l.length := by
  simp only [setNext]
  split <;> rfl

theorem setPrev_length (l : DLinkedList T) (i : Nat) (v : Option Nat) :
    (l.setPrev i v).length = l.length := by
  simp only [setPrev]
  split <;> rfl

theorem getNode_setNext_ne (l : DLinkedList T) {t j : Nat} (v : Option Nat)
    (hne : j ≠ t) : (l.setNext t v).getNode j = l.getNode j := by
  simp only [setNext]
  split
  · rfl
  · simp [getNode, List.getElem?_set_ne (Ne.symm hne)]

theorem getNode_setPrev_ne (l : DLinkedList T) {t j : Nat} (v : Option Nat)
    (hne : j ≠ t) : (l.setPrev t v).getNode j = l.getNode j := by
  simp only [setPrev]
  split
  · rfl
  · simp [getNode, List.getElem?_set_ne (Ne.symm hne)]

theorem getNode_setNext_self {l : DLinkedList T} {t : Nat} {nd : Node T}
    (h : l.getNode t = some nd) (v : Option Nat) :
    (l.setNext t v).getNode t = some { nd with next := v } := by
  have h' : l.store[t]? = some nd := h
  simp only [setNext, h']
  simp [getNode, List.getElem?_set_self (getNode_lt h)]

theorem getNode_setPrev_self {l : DLinkedList T} {t : Nat} {nd : Node T}
    (h : l.getNode t = some nd) (v : Option Nat) :
    (l.setPrev t v).getNode t = some { nd with prev := v } := by
  have h' : l.store[t]? = some nd := h
  simp only [setPrev, h']
  simp [getNode, List.getElem?_set_self (getNode_lt h)]

/-! Walk lemmas: the fuelled loops compute the abstract sequence. -/

theorem collectNext_none (l : DLinkedList T) (g : T → V) (fuel : Nat) :
    collectNext l g fuel none = [] := by
  cases fuel <;> rfl

theorem collectPrev_none (l : DLinkedList T) (g : T → V) (fuel : Nat) :
    collectPrev l g fuel none = [] := by
  cases fuel <;> rfl

theorem findNodeAux_none (l : DLinkedList T) (pred : T → Bool) (fuel : Nat) :
    findNodeAux l pred fuel none = none := by
  cases fuel <;> rfl

theorem collectNext_chain {l : DLinkedList T} (g : T → V) {ids : List Nat} :
    ∀ {p : Option Nat} {xs : List T} {fuel : Nat},
      isChainFrom l p ids xs → ids.length ≤ fuel →
      collectNext l g fuel ids.head? = xs.map g := by
  induction ids with
  | nil =>
    intro p xs fuel h _
    cases xs with
    | nil => simp [collectNext_none]
    | cons y ys => exact h.elim
  | cons i ids ih =>
    intro p xs fuel h hle
    cases xs with
    | nil => exact h.elim
    | cons y ys =>
      cases fuel with
      | zero => simp at hle
      | succ f =>
        have hstep : l.getNode i = some ⟨y, p, ids.head?⟩ := h.1
        simp only [List.head?_cons, collectNext, hstep]
        rw [ih h.2 (by simpa using hle)]
        simp [Node.getData, clonePlain]

theorem lastOr_none (ids : List Nat) : lastOr ids none = ids.getLast? := by
  cases h : ids.getLast? <;> simp [lastOr, h]

theorem lastOr_cons (i : Nat) (ids : List Nat) (p : Option Nat) :
    lastOr (i :: ids) p = lastOr ids (some i) := by
  cases ids with
  | nil => simp [lastOr]
  | cons j js =>
    cases h : (j :: js).getLast? with
    | none =>
      have hs : (j :: js).getLast?.isSome :=
        List.getLast?_isSome.mpr (List.cons_ne_nil j js)
      rw [h] at hs
      simp at hs
    | some k => simp [lastOr, List.getLast?_cons_cons, h]

theorem collectPrev_chain {l : DLinkedList T} (g : T → V) {ids : List Nat} :
    ∀ {p : Option Nat} {xs : List T} (fuel : Nat),
      isChainFrom l p ids xs →
      collectPrev l g (ids.length + fuel) (lastOr ids p) =
        (xs.map g).reverse ++ collectPrev l g fuel p := by
  induction ids with
  | nil =>
    intro p xs fuel h
    cases xs with
    | nil => simp [lastOr]
    | cons y ys => exact h.elim
  | cons i ids ih =>
    intro p xs fuel h
    cases xs with
    | nil => exact h.elim
    | cons y ys =>
      have hstep : l.getNode i = some ⟨y, p, ids.head?⟩ := h.1
      have hlen : (i :: ids).length + fuel = ids.length + (fuel + 1) := by
        simp [List.length_cons]
        omega
      rw [hlen, lastOr_cons, ih (fuel + 1) h.2]
      simp only [collectPrev, hstep]
      simp [Node.getData, clonePlain]

theorem findNodeAux_chain {l : DLinkedList T} (pred : T → Bool)
    {ids : List Nat} :
    ∀ {p : Option Nat} {xs : List T} {fuel : Nat},
      isChainFrom l p ids xs → ids.length ≤ fuel →
      (findNodeAux l pred fuel ids.head? = none ↔ ∀ x ∈ xs, pred x = false) := by
  induction ids with
  | nil =>
    intro p xs fuel h _
    cases xs with
    | nil => simp [findNodeAux_none]
    | cons y ys => exact h.elim
  | cons i ids ih =>
    intro p xs fuel h hle
    cases xs with
    | nil => exact h.elim
    | cons y ys =>
      cases fuel with
      | zero => simp at hle
      | succ f =>
        have hstep : l.getNode i = some ⟨y, p, ids.head?⟩ := h.1
        simp only [List.head?_cons, findNodeAux, hstep]
        by_cases hp : pred y
        · simp [Node.getData, clonePlain, hp]
        · simp only [Node.getData, clonePlain, hp]
          rw [if_neg (by simp [hp])]
          rw [ih h.2 (by simpa using hle)]
          simp [hp]

theorem findNodeAux_isSome {l : DLinkedList T} (pred : T → Bool) :
    ∀ (fuel : Nat) (c : Option Nat) (i : Nat),
      findNodeAux l pred fuel c = some i → (l.getNode i).isSome := by
  intro fuel
  induction fuel with
  | zero =>
    intro c i h
    cases c <;> simp [findNodeAux] at h
  | succ f ih =>
    intro c i h
    cases c with
    | none => simp [findNodeAux] at h
    | some j =>
      simp only [findNodeAux] at h
      split at h
      · exact Option.noConfusion h
      · rename_i nd hj
        split at h
        · cases h
          simp [hj]
        · exact ih nd.next i h

/-! Consequences of Represents for the derived operations. -/

theorem Represents.toArray_eq {l : DLinkedList T} {ids : List Nat}
    {xs : List T} (h : Represents l ids xs) : l.toArray = xs := by
  have := collectNext_chain (l := l) (fun x => x) h.1 h.ids_le
  simpa [toArray, h.2.1] using this

theorem Represents.walkPrevData_eq {l : DLinkedList T} {ids : List Nat}
    {xs : List T} (h : Represents l ids xs) : l.walkPrevData = xs.reverse := by
  have hle := h.ids_le
  have hchain := collectPrev_chain (l := l) (fun x => x)
    (l.store.length - ids.length) h.1
  rw [lastOr_none] at hchain
  have hfuel : ids.length + (l.store.length - ids.length) = l.store.length := by
    omega
  rw [hfuel] at hchain
  simp only [walkPrevData, h.2.2.1, hchain, collectPrev_none]
  simp

theorem Represents.findNode_none_iff {l : DLinkedList T} {ids : List Nat}
    {xs : List T} (h : Represents l ids xs) (pred : T → Bool) :
    (l.findNode pred = none ↔ ∀ x ∈ xs, pred x = false) := by
  have := findNodeAux_chain (l := l) pred h.1 h.ids_le
  simpa [findNode, h.2.1] using this

/-! Preservation of the representation by append, and hence by fromArray. -/

theorem mem_of_getLast?_eq {ids : List Nat} {t : Nat}
    (h : ids.getLast? = some t) : t ∈ ids := by
  obtain ⟨hne, heq⟩ := List.mem_getLast?_eq_getLast (l := ids) (x := t) h
  rw [heq]
  exact List.getLast_mem hne

theorem getNode_of_store_append {l l₁ : DLinkedList T} {n : Node T}
    (hs : l₁.store = l.store ++ [n]) {j : Nat} (hj : j < l.store.length) :
    l₁.getNode j = l.getNode j := by
  simp [getNode, hs, List.getElem?_append, hj]

theorem getNode_of_store_append_new {l l₁ : DLinkedList T} {n : Node T}
    (hs : l₁.store = l.store ++ [n]) :
    l₁.getNode l.store.length = some n := by
  simp [getNode, hs, List.getElem?_concat_length]

theorem isChainFrom_snoc (l l₁ : DLinkedList T) (d : T) (t m : Nat)
    (hm : m = l.store.length)
    (hs : l₁.store = l.store ++ [⟨d, some t, none⟩]) :
    ∀ (ids : List Nat) (p : Option Nat) (xs : List T),
      isChainFrom l p ids xs → ids.getLast? = some t → ids.Nodup →
      isChainFrom (l₁.setNext t (some m)) p (ids ++ [m]) (xs ++ [d]) := by
  intro ids
  induction ids with
  | nil =>
    intro p xs _ hlast _
    simp at hlast
  | cons i ids ih =>
    intro p xs hch hlast hnd
    cases xs with
    | nil => exact hch.elim
    | cons x xs =>
      have hstep : l.getNode i = some ⟨x, p, ids.head?⟩ := hch.1
      have hi_lt : i < l.store.length := getNode_lt hstep
      have hi_ne_m : i ≠ m := by omega
      cases ids with
      | nil =>
        cases xs with
        | cons _ _ => exact hch.2.elim
        | nil =>
          have hti : t = i := by simpa using hlast.symm
          subst hti
          have hm_ne_t : m ≠ t := Ne.symm hi_ne_m
          refine ⟨?_, ?_, trivial⟩
          · have e1 : l₁.getNode t = l.getNode t :=
              getNode_of_store_append hs hi_lt
            rw [getNode_setNext_self (e1.trans hstep) (some m)]
            simp
          · have e2 : (l₁.setNext t (some m)).getNode m = l₁.getNode m :=
              getNode_setNext_ne l₁ (some m) hm_ne_t
            rw [e2, hm, getNode_of_store_append_new hs]
            simp
      | cons j rest =>
        have hlast' : (j :: rest).getLast? = some t := by
          rwa [List.getLast?_cons_cons] at hlast
        have ht_mem : t ∈ j :: rest := mem_of_getLast?_eq hlast'
        have hi_ne_t : i ≠ t := by
          intro he
          exact (List.nodup_cons.mp hnd).1 (he ▸ ht_mem)
        simp only [List.cons_append]
        refine ⟨?_, ?_⟩
        · have e1 : (l₁.setNext t (some m)).getNode i = l₁.getNode i :=
            getNode_setNext_ne l₁ (some m) hi_ne_t
          have e2 : l₁.getNode i = l.getNode i :=
            getNode_of_store_append hs hi_lt
          rw [e1, e2, hstep]
          simp
        · exact ih (some i) xs hch.2 hlast' (List.nodup_cons.mp hnd).2

theorem append_nonempty_eq {l : DLinkedList T} {h t : Nat}
    (hh : l.head_node = some h) (ht : l.tail_node = some t) (d : T) :
    l.append d =
      { ({ l with store := l.store ++ [(⟨d, some t, none⟩ : Node T)] }).setNext t
          (some l.store.length) with
        tail_node := some l.store.length, length := l.length + 1 } := by
  simp [DLinkedList.append, hh, ht, clonePlain]

theorem append_store_length (l : DLinkedList T) (d : T) :
    (l.append d).store.length = l.store.length + 1 := by
  cases hh : l.head_node with
  | none => simp [DLinkedList.append, hh]
  | some i =>
    cases ht : l.tail_node with
    | none => simp [DLinkedList.append, hh, ht]
    | some t => simp [DLinkedList.append, hh, ht, setNext_store_length]

theorem Represents.append {l : DLinkedList T} {ids : List Nat} {xs : List T}
    (h : Represents l ids xs) (d : T) :
    Represents (l.append d) (ids ++ [l.store.length]) (xs ++ [d]) := by
  obtain ⟨hch, hhd, htl, hlen, hnd⟩ := h
  cases ids with
  | nil =>
    cases xs with
    | cons _ _ => exact hch.elim
    | nil =>
      have hhd' : l.head_node = none := by simpa using hhd
      simp only [DLinkedList.append, hhd', List.nil_append]
      refine ⟨⟨?_, trivial⟩, by simp, by simp, ?_, List.nodup_singleton _⟩
      · show (l.store ++ [⟨clonePlain d, none, none⟩])[l.store.length]? = _
        simp [List.getElem?_concat_length, clonePlain]
      · have : l.length = 0 := by simpa using hlen
        simp [this]
  | cons i ids' =>
    cases xs with
    | nil => exact hch.elim
    | cons x xs' =>
      have hhd' : l.head_node = some i := by simpa using hhd
      have hne : (i :: ids') ≠ [] := List.cons_ne_nil i ids'
      obtain ⟨t, ht⟩ : ∃ t, (i :: ids').getLast? = some t := by
        cases hg : (i :: ids').getLast? with
        | none =>
          have hs := List.getLast?_isSome.mpr hne
          rw [hg] at hs
          simp at hs
        | some t => exact ⟨t, rfl⟩
      have htl' : l.tail_node = some t := htl.trans ht
      have hval : ∀ j ∈ i :: ids', j < l.store.length :=
        isChainFrom_valid none (i :: ids') (x :: xs') hch
      rw [append_nonempty_eq hhd' htl' d]
      refine ⟨?_, ?_, ?_, ?_, ?_⟩
      · have hsnoc := isChainFrom_snoc l
          { l with store := l.store ++ [(⟨d, some t, none⟩ : Node T)] } d t
          l.store.length rfl rfl (i :: ids') none (x :: xs') hch ht hnd
        refine isChainFrom_congr none _ _ ?_ hsnoc
        intro j _
        rfl
      · simp [setNext_head_node, hhd']
      · rw [List.getLast?_concat]
      · rw [hlen]
        simp
      · refine List.Nodup.append hnd (List.nodup_singleton _) ?_
        intro a ha hb
        have h1 : a < l.store.length := hval a ha
        have h2 : a = l.store.length := by simpa using hb
        omega

/-- Consecutive fresh store indices starting at s (the indices fromArray
allocates for its appends). -/
def idsFrom (s : Nat) : Nat → List Nat
  | 0 => []
  | n + 1 => s :: idsFrom (s + 1) n

theorem Represents.fromArray_rep :
    ∀ (S : List T) {l : DLinkedList T} {ids : List Nat} {xs : List T},
      Represents l ids xs →
      Represents (l.fromArray S) (ids ++ idsFrom l.store.length S.length)
        (xs ++ S)
  | [], l, ids, xs, h => by simpa [fromArray, idsFrom] using h
  | a :: S, l, ids, xs, h => by
    have hA := h.append a
    have hrec := Represents.fromArray_rep S hA
    have hsl : (l.append a).store.length = l.store.length + 1 :=
      append_store_length l a
    rw [hsl] at hrec
    have e1 : (ids ++ [l.store.length]) ++ idsFrom (l.store.length + 1) S.length
        = ids ++ idsFrom l.store.length (a :: S).length := by
      simp [idsFrom, List.append_assoc]
    have e2 : (xs ++ [a]) ++ S = xs ++ (a :: S) := by
      simp [List.append_assoc]
    rw [e1, e2] at hrec
    simpa [fromArray, List.foldl_cons] using hrec

theorem represents_empty : Represents (empty T) [] [] := by
  refine ⟨trivial, rfl, rfl, rfl, List.nodup_nil⟩

theorem represents_fromArrayStatic (S : List T) :
    Represents (fromArrayStatic S) (idsFrom 0 S.length) S := by
  have := Represents.fromArray_rep S (represents_empty (T := T))
  simpa [fromArrayStatic, empty] using this

/-! Lemmas about the derived traversal operations. -/

theorem Represents.collectNext_eq {l : DLinkedList T} {ids : List Nat}
    {xs : List T} (h : Represents l ids xs) (f : T → V) :
    collectNext l f l.store.length l.head_node = xs.map f := by
  have := collectNext_chain (l := l) f h.1 h.ids_le
  rw [h.2.1]
  exact this

theorem Represents.collectPrev_eq {l : DLinkedList T} {ids : List Nat}
    {xs : List T} (h : Represents l ids xs) (f : T → V) :
    collectPrev l f l.store.length l.tail_node = (xs.map f).reverse := by
  have hle := h.ids_le
  have hchain := collectPrev_chain (l := l) f
    (l.store.length - ids.length) h.1
  rw [lastOr_none] at hchain
  have hfuel : ids.length + (l.store.length - ids.length) = l.store.length := by
    omega
  rw [hfuel] at hchain
  rw [h.2.2.1, hchain, collectPrev_none]
  simp

theorem Represents.map_toArray {l : DLinkedList T} {ids : List Nat}
    {xs : List T} (h : Represents l ids xs) (f : T → V) :
    (l.map f).toArray = xs.map f := by
  rw [DLinkedList.map, h.collectNext_eq f]
  exact (represents_fromArrayStatic (xs.map f)).toArray_eq

theorem Represents.mapRight_toArray {l : DLinkedList T} {ids : List Nat}
    {xs : List T} (h : Represents l ids xs) (f : T → V) :
    (l.mapRight f).toArray = (xs.map f).reverse := by
  rw [DLinkedList.mapRight, h.collectPrev_eq f]
  exact (represents_fromArrayStatic ((xs.map f).reverse)).toArray_eq

theorem promiseAll_isErr {ps : List (Except E V)} {p : Except E V}
    (hp : p ∈ ps) (he : isErr p = true) : isErr (promiseAll ps) = true := by
  induction ps with
  | nil => cases hp
  | cons q qs ih =>
    rcases List.mem_cons.mp hp with rfl | hmem
    · cases p with
      | error e => rfl
      | ok v => simp [isErr] at he
    · cases q with
      | error e => rfl
      | ok v =>
        have herr := ih hmem
        simp only [promiseAll]
        cases hq : promiseAll qs with
        | error e => rfl
        | ok vs =>
          rw [hq] at herr
          simp [isErr] at herr

theorem isErr_bind {p : Except E (List V)} {k : List V → Except E (DLinkedList V)}
    (hp : isErr p = true) : isErr (p >>= k) = true := by
  cases p with
  | error e => rfl
  | ok v => simp [isErr] at hp

theorem Represents.findNode_isSome_getNode {l : DLinkedList T} {i : Nat}
    {pred : T → Bool} (hf : l.findNode pred = some i) :
    (l.getNode i).isSome := by
  exact findNodeAux_isSome pred l.store.length l.head_node i hf

theorem Represents.insertAfter_error_iff {l : DLinkedList T} {ids : List Nat}
    {xs : List T} (h : Represents l ids xs) (pred : T → Bool) (d : T) :
    (l.insertAfter pred d = Except.error JsError.notFound ↔
      ∀ x ∈ xs, pred x = false) := by
  cases hf : l.findNode pred with
  | none =>
    simp only [insertAfter, hf]
    exact iff_of_true trivial ((h.findNode_none_iff pred).mp hf)
  | some i =>
    have hns : ¬ (∀ x ∈ xs, pred x = false) := by
      intro hall
      rw [(h.findNode_none_iff pred).mpr hall] at hf
      cases hf
    obtain ⟨nd, hnd⟩ :=
      Option.isSome_iff_exists.mp (Represents.findNode_isSome_getNode hf)
    simp only [insertAfter, hf, insertAfterNode, hnd]
    cases nd.next with
    | none => exact iff_of_false (by simp) hns
    | some nx => exact iff_of_false (by simp) hns

theorem Represents.insertBefore_error_iff {l : DLinkedList T} {ids : List Nat}
    {xs : List T} (h : Represents l ids xs) (pred : T → Bool) (d : T) :
    (l.insertBefore pred d = Except.error JsError.notFound ↔
      ∀ x ∈ xs, pred x = false) := by
  cases hf : l.findNode pred with
  | none =>
    simp only [insertBefore, hf]
    exact iff_of_true trivial ((h.findNode_none_iff pred).mp hf)
  | some i =>
    have hns : ¬ (∀ x ∈ xs, pred x = false) := by
      intro hall
      rw [(h.findNode_none_iff pred).mpr hall] at hf
      cases hf
    obtain ⟨nd, hnd⟩ :=
      Option.isSome_iff_exists.mp (Represents.findNode_isSome_getNode hf)
    simp only [insertBefore, hf, insertBeforeNode, hnd]
    cases nd.prev with
    | none => exact iff_of_false (by simp) hns
    | some pv => exact iff_of_false (by simp) hns

theorem removeNode_sentinel (l : DLinkedList T) : l.removeNode none = (l, none) :=
  rfl

theorem Represents.remove_no_match {l : DLinkedList T} {ids : List Nat}
    {xs : List T} (h : Represents l ids xs) (pred : T → Bool)
    (hno : ∀ x ∈ xs, pred x = false) : l.remove pred = (l, none) := by
  have hf : l.findNode pred = none := (h.findNode_none_iff pred).mpr hno
  simp [remove, hf, removeNode]

theorem asyncReduceAux_pure (l : DLinkedList T) (g : T → V → V) :
    ∀ (fuel : Nat) (c : Option Nat) (acc : V),
      asyncReduceAux (E := E) l (fun x a => Except.ok (g x a)) fuel c acc =
        Except.ok (reduceAux l g fuel c acc) := by
  intro fuel
  induction fuel with
  | zero => intro c acc; cases c <;> rfl
  | succ f ih =>
    intro c acc
    cases c with
    | none => rfl
    | some i =>
      simp only [asyncReduceAux, reduceAux]
      cases hj : l.getNode i with
      | none => rfl
      | some nd => simpa using ih nd.next (g nd.getData acc)

theorem asyncReduceRightAux_pure (l : DLinkedList T) (g : T → V → V) :
    ∀ (fuel : Nat) (c : Option Nat) (acc : V),
      asyncReduceRightAux (E := E) l (fun x a => Except.ok (g x a)) fuel c acc =
        Except.ok (reduceRightAux l g fuel c acc) := by
  intro fuel
  induction fuel with
  | zero => intro c acc; cases c <;> rfl
  | succ f ih =>
    intro c acc
    cases c with
    | none => rfl
    | some i =>
      simp only [asyncReduceRightAux, reduceRightAux]
      cases hj : l.getNode i with
      | none => rfl
      | some nd => simpa using ih nd.prev (g nd.getData acc)

/-! Claim theorems. -/

/-- C1: the claim says removeNode on any non-head node of the list,
including the tail of a two-element list, splices the node out and
decrements length.  The code instead hits a null dereference there: on the
list built from [1, 2], removing the node holding 2 (the tail) raises a
TypeError, leaves length at 2, and leaves tail_node still pointing at the
removed node, with the predecessor's next already severed. -/
theorem claim_removeNode_tail_typeError :
    ((fromArrayStatic [1, 2]).removeNode
        ((fromArrayStatic [1, 2]).findNode (fun x => decide (x = 2)))).2 =
      some JsError.typeError ∧
    ((fromArrayStatic [1, 2]).removeNode
        ((fromArrayStatic [1, 2]).findNode (fun x => decide (x = 2)))).1.length
      = 2 ∧
    ((fromArrayStatic [1, 2]).removeNode
        ((fromArrayStatic [1, 2]).findNode (fun x => decide (x = 2)))).1.tail_node
      = some 1 ∧
    ((fromArrayStatic [1, 2]).removeNode
        ((fromArrayStatic [1, 2]).findNode (fun x => decide (x = 2)))).1.toArray
      = [1] := by
  decide

/-- C2: the claim says that after any sequence of list operations, length
equals the number of nodes reachable by walking next from head, which
equals the number reachable by walking prev from tail.  After fromArray
[1, 2] followed by removeNode on the tail node, the state violates it:
walking next from head reaches 1 node, walking prev from tail reaches 2,
and the length field still says 2. -/
theorem claim_length_invariant_violated :
    (((fromArrayStatic [1, 2]).removeNode
        ((fromArrayStatic [1, 2]).findNode (fun x => decide (x = 2)))).1.toArray).length
      = 1 ∧
    (((fromArrayStatic [1, 2]).removeNode
        ((fromArrayStatic [1, 2]).findNode (fun x => decide (x = 2)))).1.walkPrevData).length
      = 2 ∧
    ((fromArrayStatic [1, 2]).removeNode
        ((fromArrayStatic [1, 2]).findNode (fun x => decide (x = 2)))).1.length
      = 2 ∧
    ¬ ((fromArrayStatic [1, 2]).removeNode
        ((fromArrayStatic [1, 2]).findNode (fun x => decide (x = 2)))).1.length
      = ((((fromArrayStatic [1, 2]).removeNode
        ((fromArrayStatic [1, 2]).findNode (fun x => decide (x = 2)))).1.toArray).length : Int) := by
  decide

/-- C3: toArray applied to the list built by fromArray(S) yields a sequence
structurally equal to S, for every sequence S. -/
theorem claim_toArray_fromArray_roundtrip {T : Type} (S : List T) :
    (fromArrayStatic S).toArray = S :=
  (represents_fromArrayStatic S).toArray_eq

/-- C4: fromArray, in both the static and the instance (constructor) form,
appends each element in order, so the built list reads back as the input
and its length is the input's length; the empty input yields the empty
list. -/
theorem claim_fromArray_appends_in_order {T : Type} (S : List T) :
    (fromArrayStatic S).toArray = S ∧
      (fromArrayStatic S).length = (S.length : Int) ∧
      ((empty T).fromArray S).toArray = S ∧
      ((empty T).fromArray S).length = (S.length : Int) ∧
      fromArrayStatic ([] : List T) = empty T := by
  have h := represents_fromArrayStatic S
  exact ⟨h.toArray_eq, h.2.2.2.1, h.toArray_eq, h.2.2.2.1, rfl⟩

/-- C5: insertAfter and insertBefore raise notFound exactly when no payload
satisfies the predicate, while remove on a miss and removeNode on the null
sentinel leave the list unchanged and raise nothing. -/
theorem claim_insert_notFound_remove_noop {T : Type} (l : DLinkedList T)
    (ids : List Nat) (xs : List T) (pred : T → Bool) (d : T)
    (h : Represents l ids xs) :
    (l.insertAfter pred d = Except.error JsError.notFound ↔
        ∀ x ∈ xs, pred x = false) ∧
      (l.insertBefore pred d = Except.error JsError.notFound ↔
        ∀ x ∈ xs, pred x = false) ∧
      ((∀ x ∈ xs, pred x = false) → l.remove pred = (l, none)) ∧
      l.removeNode none = (l, none) :=
  ⟨h.insertAfter_error_iff pred d, h.insertBefore_error_iff pred d,
    h.remove_no_match pred, removeNode_sentinel l⟩

/-- Witness for C5 at the list [1, 2] with a predicate nothing matches. -/
theorem claim_insert_notFound_remove_noop_witness :
    (fromArrayStatic [1, 2]).insertAfter (fun x => decide (x = 5)) 9 =
        Except.error JsError.notFound ∧
      (fromArrayStatic [1, 2]).remove (fun x => decide (x = 5)) =
        (fromArrayStatic [1, 2], none) := by
  have h := claim_insert_notFound_remove_noop (fromArrayStatic [1, 2])
    (idsFrom 0 2) [1, 2] (fun x => decide (x = 5)) 9
    (represents_fromArrayStatic [1, 2])
  exact ⟨h.1.mpr (by decide), h.2.2.1 (by decide)⟩

/-- C6: if any single iteratee computation fails, asyncMap and
asyncMapRight fail as a whole: the joined result is a failure, not a
(partial) list. -/
theorem claim_asyncMap_fails_as_whole {T V E : Type} (l : DLinkedList T)
    (ids : List Nat) (xs : List T) (f : T → Except E V) (x : T)
    (h : Represents l ids xs) (hx : x ∈ xs) (he : isErr (f x) = true) :
    isErr (l.asyncMap f) = true ∧ isErr (l.asyncMapRight f) = true := by
  constructor
  · have hc := h.collectNext_eq f
    have herr := promiseAll_isErr (List.mem_map_of_mem f hx) he
    simp only [asyncMap, hc]
    exact isErr_bind herr
  · have hc := h.collectPrev_eq f
    have hmem : f x ∈ (xs.map f).reverse := by
      rw [List.mem_reverse]
      exact List.mem_map_of_mem f hx
    have herr := promiseAll_isErr hmem he
    simp only [asyncMapRight, hc]
    exact isErr_bind herr

/-- Witness for C6: one failing iteratee invocation (at payload 2) makes
the whole asyncMap over [1, 2, 3] fail. -/
theorem claim_asyncMap_fails_as_whole_witness :
    isErr ((fromArrayStatic [1, 2, 3]).asyncMap
        (fun n => if n = 2 then Except.error () else Except.ok n)) = true ∧
      isErr ((fromArrayStatic [1, 2, 3]).asyncMapRight
        (fun n => if n = 2 then Except.error () else Except.ok n)) = true :=
  claim_asyncMap_fails_as_whole (fromArrayStatic [1, 2, 3]) (idsFrom 0 3)
    [1, 2, 3] (fun n => if n = 2 then Except.error () else Except.ok n) 2
    (represents_fromArrayStatic [1, 2, 3]) (by decide) (by decide)

/-- C7: mapRight (the spec's mapReverse) with the identity iteratee,
supplied or omitted, produces a new list whose order is the reverse of the
original's. -/
theorem claim_mapReverse_identity_reverses {T : Type} (l : DLinkedList T)
    (ids : List Nat) (xs : List T) (h : Represents l ids xs) :
    l.mapRightDefault.toArray = l.toArray.reverse ∧
      (l.mapRight (fun x => x)).toArray = l.toArray.reverse := by
  have h1 : (l.mapRight (fun x => x)).toArray = xs.reverse := by
    rw [h.mapRight_toArray (fun x => x)]
    simp
  rw [h.toArray_eq]
  exact ⟨h1, h1⟩

/-- Witness for C7: mapReverse with the iteratee omitted on [1, 2, 3]
yields [3, 2, 1]. -/
theorem claim_mapReverse_identity_reverses_witness :
    (fromArrayStatic [1, 2, 3]).mapRightDefault.toArray = [3, 2, 1] := by
  have h := claim_mapReverse_identity_reverses (fromArrayStatic [1, 2, 3])
    (idsFrom 0 3) [1, 2, 3] (represents_fromArrayStatic [1, 2, 3])
  rw [h.1]
  decide

/-- C8: map with the identity iteratee, supplied or omitted, produces a new
list that reads back exactly as the original (the original list value is
not touched by the call: map only reads it). -/
theorem claim_map_identity_preserves {T : Type} (l : DLinkedList T)
    (ids : List Nat) (xs : List T) (h : Represents l ids xs) :
    l.mapDefault.toArray = l.toArray ∧
      (l.map (fun x => x)).toArray = l.toArray := by
  have h1 : (l.map (fun x => x)).toArray = xs := by
    rw [h.map_toArray (fun x => x)]
    simp
  rw [h.toArray_eq]
  exact ⟨h1, h1⟩

/-- Witness for C8 at [1, 2, 3]. -/
theorem claim_map_identity_preserves_witness :
    (fromArrayStatic [1, 2, 3]).mapDefault.toArray = [1, 2, 3] := by
  have h := claim_map_identity_preserves (fromArrayStatic [1, 2, 3])
    (idsFrom 0 3) [1, 2, 3] (represents_fromArrayStatic [1, 2, 3])
  rw [h.1]
  decide

/-- C9: with an iteratee that always produces an immediate (plain) value,
asyncReduce computes exactly the synchronous reduce, and asyncReduceRight
exactly reduceRight, for every list state, iteratee and accumulator. -/
theorem claim_asyncReduce_matches_reduce {T V E : Type} (l : DLinkedList T)
    (g : T → V → V) (init : V) :
    l.asyncReduce (E := E) (fun x a => Except.ok (g x a)) init =
        Except.ok (l.reduce g init) ∧
      l.asyncReduceRight (E := E) (fun x a => Except.ok (g x a)) init =
        Except.ok (l.reduceRight g init) :=
  ⟨asyncReduceAux_pure l g l.store.length l.head_node init,
    asyncReduceRightAux_pure l g l.store.length l.tail_node init⟩

/-- C10: the null returned for an empty list, for a lookup miss, and for a
stored payload that is itself null are the same value: on the list
[null, 1], head() returns exactly what it returns on the empty list, and
find returns null both when the first match holds null and on a miss; same
for tail() on [1, null]. -/
theorem claim_null_sentinel_indistinguishable :
    DLinkedList.head (fromArrayStatic ([none, some 1] : List (Option Nat)))
        = none ∧
      DLinkedList.head (empty (Option Nat)) = none ∧
      DLinkedList.head (fromArrayStatic ([none, some 1] : List (Option Nat)))
        = DLinkedList.head (empty (Option Nat)) ∧
      DLinkedList.find (fromArrayStatic ([none, some 1] : List (Option Nat)))
        (fun v => v.isNone) = none ∧
      DLinkedList.find (fromArrayStatic ([none, some 1] : List (Option Nat)))
        (fun v => decide (v = some 99)) = none ∧
      DLinkedList.tail (fromArrayStatic ([some 1, none] : List (Option Nat)))
        = none ∧
      DLinkedList.tail (empty (Option Nat)) = none := by
  decide

end DLinkedList

end ImmutableDll
